import Mathlib

/-!
Shallow embedding of `src/atomic.rs` from the `hibitset` repository: the
4-layer hierarchical `AtomicBitSet`, its per-group `AtomicBlock`, and the
write-once leaf-array cell.

Modelling conventions:
* `usize`/`AtomicUsize` machine words are `Nat`; every value a real
  execution stores in a word is `< 2 ^ 64`, and the one operation whose
  result depends on the word width (bitwise NOT) is modelled explicitly as
  complement within 64 bits (`NOT64`).  Where a loop's termination depends
  on a word being 64 bits wide, the value read from a word is reduced
  `% 2 ^ 64`, which is the identity on every value a word can actually hold.
* `Vec<AtomicUsize>` / `Vec<AtomicBlock>` / the boxed `[AtomicUsize; 64]`
  leaf array are total functions out of `Nat`; indices beyond the array
  length are phantom entries that no operation reads or writes.  Rust's
  panicking out-of-bounds indexing in the public operations is modelled by
  an explicit capacity guard returning `none` (for an identifier `id` the
  first array access to go out of bounds is exactly when `id ≥ capacity`).
* The `OnceAtom` write-once cell is an `Option` of the leaf array;
  `get_or_init` is `Option.getD` with the freshly zeroed array, after which
  the (possibly new) array is stored back.
* Atomic read-modify-writes (`fetch_or`, `swap`, load/store pairs) become
  plain functional updates: every claim checked here is about the
  exclusive-access (single-thread) behaviour of the operations.
-/

namespace Hibitset

/-- Modelled from the spec (the index-math module `util` is not under
`src/`): address width consumed per layer, `B = log2 W` with `W = 64` the
native word width. -/
def BITS : Nat := 6

/-- Modelled from the spec: shift amount of layer 0 in the fixed per-layer
shift schedule. -/
def SHIFT0 : Nat := 0

/-- Modelled from the spec: shift amount of layer 1. -/
def SHIFT1 : Nat := SHIFT0 + BITS

/-- Modelled from the spec: shift amount of layer 2. -/
def SHIFT2 : Nat := SHIFT1 + BITS

/-- Modelled from the spec: shift amount of layer 3. -/
def SHIFT3 : Nat := SHIFT2 + BITS

/-- Fixed capacity of the structure: fan-out `W` per tree level over four
levels, `W ^ 4 = 2 ^ 24`. -/
def capacity : Nat := (1 <<< BITS) ^ 4

/-- Modelled from the spec: the row (word-relative bit position) of an
identifier at the layer with shift amount `shift`. -/
def row (id shift : Nat) : Nat := (id >>> shift) &&& ((1 <<< BITS) - 1)

/-- Modelled from the spec: the single-bit mask of an identifier at the
layer with shift amount `shift`. -/
def mask (id shift : Nat) : Nat := 1 <<< row id shift

/-- Modelled from the spec: the word index of an identifier at the layer
with shift amount `shift`. -/
def offset (id shift : Nat) : Nat := id / (1 <<< shift)

/-- Modelled from the spec: decomposition of an identifier into the word
indices consumed by the tree operations. -/
def offsets (id : Nat) : Nat × Nat × Nat :=
  (offset id SHIFT1, offset id SHIFT2, offset id SHIFT3)

/-- Bitwise complement of a 64-bit machine word (`!m` on a Rust `usize`). -/
def NOT64 (m : Nat) : Nat := (2 ^ 64 - 1) ^^^ m

/-- One group block: a presence-summary word (`mask`) paired with the
write-once leaf array (`atom`); `none` models the not-yet-published
(null-pointer) state of the `OnceAtom` cell. -/
structure AtomicBlock where
  mask : Nat
  atom : Option (Nat → Nat)

/-- `AtomicBlock::new`. -/
def AtomicBlock.new : AtomicBlock := { mask := 0, atom := none }

/-- `AtomicBlock::add`: resolve (or lazily publish a zeroed) leaf array, OR
the identifier's bit into its leaf word, OR the identifier's layer-1 bit
into the summary word, and report whether the leaf bit was set before. -/
def AtomicBlock.add (b : AtomicBlock) (id : Nat) : AtomicBlock × Bool :=
  let i := row id SHIFT1
  let m := Hibitset.mask id SHIFT0
  let arr := b.atom.getD (fun _ => 0)
  let old := arr i
  ({ mask := b.mask ||| Hibitset.mask id SHIFT1,
     atom := some (Function.update arr i (old ||| m)) },
   decide (old &&& m ≠ 0))

/-- `AtomicBlock::contains`: false if the leaf array was never published,
else read the identifier's leaf bit. -/
def AtomicBlock.contains (b : AtomicBlock) (id : Nat) : Bool :=
  match b.atom with
  | some arr => decide (arr (row id SHIFT1) &&& Hibitset.mask id SHIFT0 ≠ 0)
  | none => false

/-- `AtomicBlock::remove`: clear the identifier's leaf bit if the leaf
array exists; if the leaf word becomes zero also clear the corresponding
summary bit; report whether the leaf bit had been set. -/
def AtomicBlock.remove (b : AtomicBlock) (id : Nat) : AtomicBlock × Bool :=
  match b.atom with
  | some arr =>
    let i := row id SHIFT1
    let m := NOT64 (Hibitset.mask id SHIFT0)
    let v := arr i
    let wasSet := decide (v &&& Hibitset.mask id SHIFT0 = Hibitset.mask id SHIFT0)
    let v2 := v &&& m
    ({ mask := if v2 = 0 then b.mask &&& NOT64 (Hibitset.mask id SHIFT1) else b.mask,
       atom := some (Function.update arr i v2) },
     wasSet)
  | none => (b, false)

/-- `AtomicBlock::clear`: zero the summary word and, if the leaf array is
published, zero every leaf word (the array itself is retained). -/
def AtomicBlock.clear (b : AtomicBlock) : AtomicBlock :=
  { mask := 0, atom := b.atom.map fun _ => fun _ => 0 }

/-- The hierarchical bit set: one top summary word, `W` mid summary words,
`W ^ 2` group blocks. -/
structure AtomicBitSet where
  layer3 : Nat
  layer2 : Nat → Nat
  layer1 : Nat → AtomicBlock

/-- `AtomicBitSet::new` / `Default::default`: empty summary words,
`W ^ 2` fresh group blocks with unallocated leaf arrays. -/
def AtomicBitSet.new : AtomicBitSet :=
  { layer3 := 0, layer2 := fun _ => 0, layer1 := fun _ => AtomicBlock.new }

/-- `AtomicBitSet::add_atomic`: delegate to the owning group block's `add`,
then unconditionally OR the identifier's mid- and top-summary bits.  The
guard models the panicking out-of-bounds index: `layer1[p1]` is the first
access to go out of bounds, and `p1 = id / 4096 ≥ 4096` exactly when
`id ≥ capacity`. -/
def AtomicBitSet.add_atomic (s : AtomicBitSet) (id : Nat) :
    Option (AtomicBitSet × Bool) :=
  if id < capacity then
    let p1 := offset id SHIFT2
    let p2 := offset id SHIFT3
    let r := (s.layer1 p1).add id
    some
      ({ layer3 := s.layer3 ||| mask id SHIFT3,
         layer2 := Function.update s.layer2 p2 (s.layer2 p2 ||| mask id SHIFT2),
         layer1 := Function.update s.layer1 p1 r.1 },
       r.2)
  else none

/-- `AtomicBitSet::add` (exclusive): delegate to the group block's `add`;
if the leaf bit was already set return early, otherwise load-then-store the
mid- and top-summary bits. -/
def AtomicBitSet.add (s : AtomicBitSet) (id : Nat) :
    Option (AtomicBitSet × Bool) :=
  if id < capacity then
    let p1 := offset id SHIFT2
    let p2 := offset id SHIFT3
    let r := (s.layer1 p1).add id
    let s1 : AtomicBitSet := { s with layer1 := Function.update s.layer1 p1 r.1 }
    if r.2 then some (s1, true)
    else
      some
        ({ s1 with
            layer2 := Function.update s1.layer2 p2 (s1.layer2 p2 ||| mask id SHIFT2),
            layer3 := s1.layer3 ||| mask id SHIFT3 },
         false)
  else none

/-- `AtomicBitSet::remove` (exclusive): clear via the group block; if the
block's summary word became zero clear the mid-summary bit; if that word
became zero clear the top-summary bit. -/
def AtomicBitSet.remove (s : AtomicBitSet) (id : Nat) :
    Option (AtomicBitSet × Bool) :=
  if id < capacity then
    let p1 := offset id SHIFT2
    let p2 := offset id SHIFT3
    let r := (s.layer1 p1).remove id
    let s1 : AtomicBitSet := { s with layer1 := Function.update s.layer1 p1 r.1 }
    if !r.2 then some (s1, false)
    else if r.1.mask ≠ 0 then some (s1, true)
    else
      let v := s1.layer2 p2 &&& NOT64 (mask id SHIFT2)
      let s2 : AtomicBitSet := { s1 with layer2 := Function.update s1.layer2 p2 v }
      if v ≠ 0 then some (s2, true)
      else some ({ s2 with layer3 := s2.layer3 &&& NOT64 (mask id SHIFT3) }, true)
  else none

/-- `AtomicBitSet::contains`: delegate to the resolved group block (the
guard models the panicking index, as in `add_atomic`). -/
def AtomicBitSet.contains (s : AtomicBitSet) (id : Nat) : Option Bool :=
  if id < capacity then some ((s.layer1 (offset id SHIFT2)).contains id)
  else none

/-- `BitSetLike::layer3` for `AtomicBitSet` (named `layer3Word` here
because `layer3` is the structure field it loads). -/
def AtomicBitSet.layer3Word (s : AtomicBitSet) : Nat := s.layer3

/-- `BitSetLike::layer2` for `AtomicBitSet`. -/
def AtomicBitSet.layer2Word (s : AtomicBitSet) (i : Nat) : Nat := s.layer2 i

/-- `BitSetLike::layer1` for `AtomicBitSet`: the group block's summary
word. -/
def AtomicBitSet.layer1Word (s : AtomicBitSet) (i : Nat) : Nat :=
  (s.layer1 i).mask

/-- `BitSetLike::layer0` for `AtomicBitSet`: resolve the owning group
block's leaf array and read the addressed word, or zero if the array was
never published. -/
def AtomicBitSet.layer0 (s : AtomicBitSet) (i : Nat) : Nat :=
  let o1 := i >>> BITS
  let o0 := i &&& ((1 <<< BITS) - 1)
  match (s.layer1 o1).atom with
  | some arr => arr o0
  | none => 0

/-- The leaf word `k` of group block `j`, an unallocated leaf array
counting as all-zero (shorthand used by the invariant below). -/
def leafW (s : AtomicBitSet) (j k : Nat) : Nat :=
  ((s.layer1 j).atom.getD (fun _ => 0)) k

/-- `Debug for AtomicBlock`: formats the summary word and
`self.atom.get().unwrap().iter()`; the `unwrap` of the unpublished leaf
array is the `none` result. -/
def AtomicBlock.debugFmt (b : AtomicBlock) : Option (Nat × List Nat) :=
  match b.atom with
  | some arr => some (b.mask, (List.range (1 <<< BITS)).map arr)
  | none => none

/-- Derived `Debug for AtomicBitSet`: formats `layer3`, every `layer2`
word, and every `AtomicBlock` via the block's `Debug` instance. -/
def AtomicBitSet.debugFmt (s : AtomicBitSet) :
    Option (Nat × List Nat × List (Nat × List Nat)) :=
  ((List.range (1 <<< (2 * BITS))).mapM fun j => (s.layer1 j).debugFmt).map
    fun blocks => (s.layer3, (List.range (1 <<< BITS)).map s.layer2, blocks)

/-- Number of trailing zero bits of a non-zero word (`usize::trailing_zeros`,
used by `clear`'s hierarchical striding). -/
def tz (n : Nat) : Nat :=
  if h : n = 0 then 0
  else if n % 2 = 1 then 0
  else tz (n / 2) + 1
termination_by n
decreasing_by exact Nat.div_lt_self (Nat.pos_of_ne_zero h) (by omega)

/-- The trailing-zeros position of a non-zero word is a set bit. -/
theorem tz_testBit : ∀ n : Nat, n ≠ 0 → n.testBit (tz n) = true := by
  intro n
  induction n using Nat.strong_induction_on with
  | _ n ih =>
    intro h
    rw [tz, dif_neg h]
    by_cases h2 : n % 2 = 1
    · rw [if_pos h2, Nat.testBit_zero]
      simp [h2]
    · rw [if_neg h2]
      have hn2 : n / 2 ≠ 0 := by omega
      have := ih (n / 2) (Nat.div_lt_self (Nat.pos_of_ne_zero h) (by omega)) hn2
      rw [Nat.testBit_add_one]
      exact this

/-- The trailing-zeros position of a word below `2 ^ k` is below `k`. -/
theorem tz_lt_of_lt {n k : Nat} (h : n ≠ 0) (hk : n < 2 ^ k) : tz n < k := by
  by_contra hge
  push_neg at hge
  have h1 := Nat.testBit_implies_ge (tz_testBit n h)
  have h2 : (2 : Nat) ^ k ≤ 2 ^ tz n := Nat.pow_le_pow_right (by omega) hge
  omega

/-- Clearing the lowest set bit of a non-zero 64-bit word strictly
decreases it. -/
theorem and_NOT64_tz_lt {n : Nat} (h : n ≠ 0) (h64 : n < 2 ^ 64) :
    n &&& NOT64 (1 <<< tz n) < n := by
  have hlt : tz n < 64 := tz_lt_of_lt h h64
  have hle : n &&& NOT64 (1 <<< tz n) ≤ n := Nat.and_le_left
  have hne : n &&& NOT64 (1 <<< tz n) ≠ n := by
    intro heq
    have h1 : (NOT64 (1 <<< tz n)).testBit (tz n) = false := by
      rw [NOT64, Nat.testBit_xor, Nat.one_shiftLeft,
        Nat.testBit_two_pow_sub_one, Nat.testBit_two_pow_self]
      simp [hlt]
    have hb : (n &&& NOT64 (1 <<< tz n)).testBit (tz n) = false := by
      rw [Nat.testBit_and, h1, Bool.and_false]
    rw [heq, tz_testBit n h] at hb
    simp at hb
  omega

/-- The loop body of `AtomicBitSet::clear`: consume the captured top bits
`m3` and currently-held mid bits `m2`, clearing one group block per
iteration of the inner branch and swapping-in one mid word per iteration of
the outer branch.  The `% 2 ^ 64` reductions record that `m2` and `m3` are
64-bit machine words (they are the identity whenever the words hold what a
real execution can store). -/
def clearLoop (s : AtomicBitSet) (m3 m2 off : Nat) : AtomicBitSet :=
  if h2 : m2 % 2 ^ 64 ≠ 0 then
    clearLoop
      { s with layer1 :=
          (Function.update s.layer1 (off + tz (m2 % 2 ^ 64))
            (s.layer1 (off + tz (m2 % 2 ^ 64))).clear) }
      m3 (m2 % 2 ^ 64 &&& NOT64 (1 <<< tz (m2 % 2 ^ 64))) off
  else if h3 : m3 % 2 ^ 64 ≠ 0 then
    clearLoop { s with layer2 := Function.update s.layer2 (tz (m3 % 2 ^ 64)) 0 }
      (m3 % 2 ^ 64 &&& NOT64 (1 <<< tz (m3 % 2 ^ 64))) (s.layer2 (tz (m3 % 2 ^ 64)))
      (tz (m3 % 2 ^ 64) <<< BITS)
  else s
termination_by m3 % 2 ^ 64 * 2 ^ 64 + m2 % 2 ^ 64
decreasing_by
· have hx : m2 % 2 ^ 64 < 2 ^ 64 := Nat.mod_lt _ (by norm_num)
  have hy := and_NOT64_tz_lt h2 hx
  have hz : m2 % 2 ^ 64 &&& NOT64 (1 <<< tz (m2 % 2 ^ 64)) < 2 ^ 64 := by omega
  rw [Nat.mod_eq_of_lt hz]
  omega
· have hx : m3 % 2 ^ 64 < 2 ^ 64 := Nat.mod_lt _ (by norm_num)
  have hy := and_NOT64_tz_lt h3 hx
  have hz : m3 % 2 ^ 64 &&& NOT64 (1 <<< tz (m3 % 2 ^ 64)) < 2 ^ 64 := by omega
  rw [Nat.mod_eq_of_lt hz]
  have hw : s.layer2 (tz (m3 % 2 ^ 64)) % 2 ^ 64 < 2 ^ 64 := Nat.mod_lt _ (by norm_num)
  rw [not_ne_iff] at h2
  omega

/-- `AtomicBitSet::clear`: swap-and-zero the top summary word, then stride
hierarchically through its set bits. -/
def AtomicBitSet.clear (s : AtomicBitSet) : AtomicBitSet :=
  clearLoop { s with layer3 := 0 } (s.layer3 % 2 ^ 64) 0 0

/-- A group block is observably empty: zero summary word and (allocated or
not) all-zero leaf words. -/
def BlockZero (b : AtomicBlock) : Prop :=
  b.mask = 0 ∧ ∀ k < 64, (b.atom.getD (fun _ => 0)) k = 0

/-- The whole structure is observably empty. -/
def Zeroed (s : AtomicBitSet) : Prop :=
  s.layer3 = 0 ∧ (∀ i < 64, s.layer2 i = 0) ∧ ∀ j < 4096, BlockZero (s.layer1 j)

/-- The hierarchy invariant: every summary word is a 64-bit word whose bit
`k` is set exactly when the corresponding word one level below (leaf words
of an unallocated array counting as zero) is non-zero. -/
def Inv (s : AtomicBitSet) : Prop :=
  s.layer3 < 2 ^ 64 ∧
  (∀ i < 64, s.layer2 i < 2 ^ 64) ∧
  (∀ j < 4096, (s.layer1 j).mask < 2 ^ 64) ∧
  (∀ j < 4096, ∀ k < 64, leafW s j k < 2 ^ 64) ∧
  (∀ k < 64, (s.layer3.testBit k ↔ s.layer2 k ≠ 0)) ∧
  (∀ i < 64, ∀ k < 64, ((s.layer2 i).testBit k ↔ (s.layer1 (i * 64 + k)).mask ≠ 0)) ∧
  (∀ j < 4096, ∀ k < 64, (((s.layer1 j).mask).testBit k ↔ leafW s j k ≠ 0))

/-- States reachable from a fresh `AtomicBitSet` by non-panicking
insertions, removals and clears. -/
inductive Reachable : AtomicBitSet → Prop
  | new : Reachable AtomicBitSet.new
  | add {s s' : AtomicBitSet} {id : Nat} {b : Bool} :
      Reachable s → s.add id = some (s', b) → Reachable s'
  | add_atomic {s s' : AtomicBitSet} {id : Nat} {b : Bool} :
      Reachable s → s.add_atomic id = some (s', b) → Reachable s'
  | remove {s s' : AtomicBitSet} {id : Nat} {b : Bool} :
      Reachable s → s.remove id = some (s', b) → Reachable s'
  | clear {s : AtomicBitSet} : Reachable s → Reachable s.clear

/-! Toolkit: normal forms for the coordinate math and single-bit lemmas. -/

theorem capacity_eq : capacity = 2 ^ 24 := by decide

theorem row_eq (id s : Nat) : row id s = id / 2 ^ s % 64 := by
  have h1 : (1 <<< BITS) - 1 = 2 ^ 6 - 1 := by norm_num [BITS, Nat.one_shiftLeft]
  rw [row, Nat.shiftRight_eq_div_pow, h1, Nat.and_pow_two_sub_one_eq_mod]

theorem mask_eq_pow (id s : Nat) : mask id s = 2 ^ row id s := by
  rw [mask, Nat.one_shiftLeft]

theorem row_lt (id s : Nat) : row id s < 64 := by
  rw [row_eq]
  exact Nat.mod_lt _ (by norm_num)

theorem row0_eq (id : Nat) : row id SHIFT0 = id % 64 := by
  rw [row_eq]
  norm_num [SHIFT0]

theorem row1_eq (id : Nat) : row id SHIFT1 = id / 64 % 64 := by
  rw [row_eq]
  norm_num [SHIFT1, SHIFT0, BITS]

theorem row2_eq (id : Nat) : row id SHIFT2 = id / 4096 % 64 := by
  rw [row_eq]
  norm_num [SHIFT2, SHIFT1, SHIFT0, BITS]

theorem row3_eq (id : Nat) : row id SHIFT3 = id / 262144 % 64 := by
  rw [row_eq]
  norm_num [SHIFT3, SHIFT2, SHIFT1, SHIFT0, BITS]

theorem off2_eq (id : Nat) : offset id SHIFT2 = id / 4096 := by
  rw [offset, Nat.one_shiftLeft]
  norm_num [SHIFT2, SHIFT1, SHIFT0, BITS]

theorem off3_eq (id : Nat) : offset id SHIFT3 = id / 262144 := by
  rw [offset, Nat.one_shiftLeft]
  norm_num [SHIFT3, SHIFT2, SHIFT1, SHIFT0, BITS]

theorem row3_eq_off3 {id : Nat} (h : id < capacity) :
    row id SHIFT3 = offset id SHIFT3 := by
  rw [row3_eq, off3_eq]
  rw [capacity_eq] at h
  omega

theorem two_pow_lt64 {r : Nat} (h : r < 64) : (2 : Nat) ^ r < 2 ^ 64 :=
  Nat.pow_lt_pow_right (by omega) h

theorem and_two_pow_ne_zero_iff (x r : Nat) :
    x &&& 2 ^ r ≠ 0 ↔ x.testBit r = true := by
  rw [Nat.and_two_pow]
  cases hx : x.testBit r <;> simp [hx, (Nat.two_pow_pos r).ne, (Nat.two_pow_pos r).ne']

theorem and_two_pow_eq_iff (x r : Nat) :
    x &&& 2 ^ r = 2 ^ r ↔ x.testBit r = true := by
  rw [Nat.and_two_pow]
  cases hx : x.testBit r <;> simp [hx, (Nat.two_pow_pos r).ne, (Nat.two_pow_pos r).ne']

theorem or_two_pow_eq_self {x r : Nat} (h : x.testBit r = true) :
    x ||| 2 ^ r = x :=
  Nat.eq_of_testBit_eq fun i => by
    rw [Nat.testBit_or]
    by_cases hir : r = i
    · subst hir
      simp [h]
    · simp [Nat.testBit_two_pow_of_ne hir]

theorem testBit_and_NOT64 (x r k : Nat) (hr : r < 64) :
    (x &&& NOT64 (2 ^ r)).testBit k =
      (x.testBit k && decide (k < 64) && !decide (k = r)) := by
  rw [Nat.testBit_and, NOT64, Nat.testBit_xor, Nat.testBit_two_pow_sub_one]
  by_cases hk : k = r
  · subst hk
    simp [Nat.testBit_two_pow_self, hr]
  · rw [Nat.testBit_two_pow_of_ne (fun he => hk he.symm)]
    simp [hk, Bool.xor_false]

theorem testBit_beyond64 {x k : Nat} (hx : x < 2 ^ 64) (hk : 64 ≤ k) :
    x.testBit k = false :=
  Nat.testBit_lt_two_pow
    (lt_of_lt_of_le hx (Nat.pow_le_pow_right (by omega) hk))

theorem testBit_and_NOT64s {x r : Nat} (hr : r < 64) (hx : x < 2 ^ 64) (k : Nat) :
    (x &&& NOT64 (2 ^ r)).testBit k = (x.testBit k && !decide (k = r)) := by
  rw [testBit_and_NOT64 x r k hr]
  by_cases hk : k < 64
  · simp [hk]
  · rw [testBit_beyond64 hx (by omega)]
    simp

theorem clear_unset_bit {x r : Nat} (hr : r < 64) (hx : x < 2 ^ 64)
    (h : x.testBit r = false) : x &&& NOT64 (2 ^ r) = x :=
  Nat.eq_of_testBit_eq fun k => by
    rw [testBit_and_NOT64s hr hx k]
    by_cases hk : k = r
    · subst hk
      simp [h]
    · simp [hk]

theorem ne_zero_of_testBit {x r : Nat} (h : x.testBit r = true) : x ≠ 0 := by
  intro h0
  rw [h0, Nat.zero_testBit] at h
  exact Bool.false_ne_true h

theorem eq_zero_of_testBit_lt64 {x : Nat} (hx : x < 2 ^ 64)
    (h : ∀ k < 64, x.testBit k = false) : x = 0 :=
  Nat.eq_of_testBit_eq fun k => by
    rw [Nat.zero_testBit]
    by_cases hk : k < 64
    · exact h k hk
    · exact testBit_beyond64 hx (by omega)

theorem id_decomp (id : Nat) :
    id = id / 4096 * 4096 + id / 64 % 64 * 64 + id % 64 := by omega

theorem p1_decomp (id : Nat) :
    id / 4096 = id / 262144 * 64 + id / 4096 % 64 := by omega

/-- The leaf word `k` of a single block, unallocated counting as zero. -/
def blkLeaf (b : AtomicBlock) (k : Nat) : Nat := (b.atom.getD (fun _ => 0)) k

theorem leafW_eq (s : AtomicBitSet) (j k : Nat) :
    leafW s j k = blkLeaf (s.layer1 j) k := rfl

theorem decide_and_two_pow (x r : Nat) :
    decide (x &&& 2 ^ r ≠ 0) = x.testBit r := by
  cases hx : x.testBit r <;>
    simp [Nat.and_two_pow, hx, (Nat.two_pow_pos r).ne, (Nat.two_pow_pos r).ne']

theorem decide_and_two_pow_eq (x r : Nat) :
    decide (x &&& 2 ^ r = 2 ^ r) = x.testBit r := by
  cases hx : x.testBit r <;>
    simp [Nat.and_two_pow, hx, (Nat.two_pow_pos r).ne, (Nat.two_pow_pos r).ne']

theorem testBit_or_two_pow (x r k : Nat) :
    (x ||| 2 ^ r).testBit k = (x.testBit k || decide (k = r)) := by
  rw [Nat.testBit_or]
  by_cases hk : k = r
  · subst hk
    simp [Nat.testBit_two_pow_self]
  · rw [Nat.testBit_two_pow_of_ne (fun he => hk he.symm)]
    simp [hk]

/-! Characterisations of the block operations. -/

theorem block_add_mask (b : AtomicBlock) (id : Nat) :
    (b.add id).1.mask = b.mask ||| 2 ^ row id SHIFT1 := by
  simp only [AtomicBlock.add, mask_eq_pow]

theorem block_add_leaf (b : AtomicBlock) (id k : Nat) :
    blkLeaf (b.add id).1 k =
      if k = row id SHIFT1 then blkLeaf b (row id SHIFT1) ||| 2 ^ row id SHIFT0
      else blkLeaf b k := by
  simp only [AtomicBlock.add, blkLeaf, mask_eq_pow, Option.getD_some]
  by_cases hk : k = row id SHIFT1
  · subst hk
    rw [Function.update_same, if_pos rfl]
  · rw [Function.update_noteq hk, if_neg hk]

theorem block_add_snd (b : AtomicBlock) (id : Nat) :
    (b.add id).2 = (blkLeaf b (row id SHIFT1)).testBit (row id SHIFT0) := by
  simp only [AtomicBlock.add, mask_eq_pow]
  rw [decide_and_two_pow]
  rfl

theorem block_contains_eq (b : AtomicBlock) (id : Nat) :
    b.contains id = (blkLeaf b (row id SHIFT1)).testBit (row id SHIFT0) := by
  cases hb : b.atom with
  | none => simp [AtomicBlock.contains, hb, blkLeaf, Nat.zero_testBit]
  | some arr =>
      simp only [AtomicBlock.contains, hb, blkLeaf, mask_eq_pow, Option.getD_some]
      rw [decide_and_two_pow]

theorem block_remove_none {b : AtomicBlock} (hb : b.atom = none) (id : Nat) :
    b.remove id = (b, false) := by
  simp [AtomicBlock.remove, hb]

theorem block_remove_some {b : AtomicBlock} {arr : Nat → Nat}
    (hb : b.atom = some arr) (id : Nat) :
    b.remove id =
      ({ mask := if arr (row id SHIFT1) &&& NOT64 (2 ^ row id SHIFT0) = 0
                 then b.mask &&& NOT64 (2 ^ row id SHIFT1) else b.mask,
         atom := some (Function.update arr (row id SHIFT1)
                  (arr (row id SHIFT1) &&& NOT64 (2 ^ row id SHIFT0))) },
       (arr (row id SHIFT1)).testBit (row id SHIFT0)) := by
  simp only [AtomicBlock.remove, hb, mask_eq_pow]
  rw [decide_and_two_pow_eq]

theorem block_clear_mask (b : AtomicBlock) : b.clear.mask = 0 := rfl

theorem block_clear_leaf (b : AtomicBlock) (k : Nat) : blkLeaf b.clear k = 0 := by
  cases hb : b.atom <;> simp [AtomicBlock.clear, blkLeaf, hb]

/-! Unfolding lemmas for the in-capacity tree operations. -/

theorem add_atomic_eq {s : AtomicBitSet} {id : Nat} (h : id < capacity) :
    s.add_atomic id = some
      ({ layer3 := s.layer3 ||| mask id SHIFT3,
         layer2 := Function.update s.layer2 (offset id SHIFT3)
            (s.layer2 (offset id SHIFT3) ||| mask id SHIFT2),
         layer1 := Function.update s.layer1 (offset id SHIFT2)
            ((s.layer1 (offset id SHIFT2)).add id).1 },
       ((s.layer1 (offset id SHIFT2)).add id).2) := by
  simp only [AtomicBitSet.add_atomic, if_pos h]

theorem contains_eq {s : AtomicBitSet} {id : Nat} (h : id < capacity) :
    s.contains id =
      some ((leafW s (id / 4096) (id / 64 % 64)).testBit (id % 64)) := by
  rw [AtomicBitSet.contains, if_pos h, block_contains_eq, row1_eq, row0_eq, off2_eq]
  rw [leafW_eq]

/-! Preservation of the hierarchy invariant. -/

theorem Inv_add_atomic {s s' : AtomicBitSet} {id : Nat} {bo : Bool}
    (hInv : Inv s) (h : s.add_atomic id = some (s', bo)) : Inv s' := by
  have hid : id < capacity := by
    by_contra hc
    rw [AtomicBitSet.add_atomic, if_neg hc] at h
    exact Option.noConfusion h
  have hid' : id < 2 ^ 24 := capacity_eq ▸ hid
  have hm3 : mask id SHIFT3 = 2 ^ (id / 262144) := by
    rw [mask_eq_pow, row3_eq]
    congr 1
    omega
  have hm2 : mask id SHIFT2 = 2 ^ (id / 4096 % 64) := by rw [mask_eq_pow, row2_eq]
  rw [add_atomic_eq hid, hm2, hm3, off2_eq, off3_eq] at h
  simp only [Option.some.injEq, Prod.mk.injEq] at h
  obtain ⟨h1, h2⟩ := h
  subst h1
  obtain ⟨h3lt, h2lt, h1lt, h0lt, hL3, hL2, hL1⟩ := hInv
  simp only [leafW_eq] at h0lt hL1
  have hp2 : id / 262144 < 64 := by omega
  have hp1 : id / 4096 < 4096 := by omega
  have hr2 : id / 4096 % 64 < 64 := by omega
  have hpd : id / 4096 = id / 262144 * 64 + id / 4096 % 64 := p1_decomp id
  refine ⟨?_, ?_, ?_, ?_, ?_, ?_, ?_⟩ <;> dsimp only
  · exact Nat.or_lt_two_pow h3lt (two_pow_lt64 hp2)
  · intro i hi
    by_cases hip : i = id / 262144
    · subst hip
      rw [Function.update_same]
      exact Nat.or_lt_two_pow (h2lt _ hp2) (two_pow_lt64 hr2)
    · rw [Function.update_noteq hip]
      exact h2lt i hi
  · intro j hj
    by_cases hjp : j = id / 4096
    · subst hjp
      rw [Function.update_same, block_add_mask]
      exact Nat.or_lt_two_pow (h1lt _ hp1) (two_pow_lt64 (row_lt id SHIFT1))
    · rw [Function.update_noteq hjp]
      exact h1lt j hj
  · intro j hj k hk
    simp only [leafW_eq]
    by_cases hjp : j = id / 4096
    · subst hjp
      rw [Function.update_same, block_add_leaf]
      by_cases hk1 : k = row id SHIFT1
      · rw [if_pos hk1]
        exact Nat.or_lt_two_pow (h0lt _ hp1 _ (row_lt id SHIFT1))
          (two_pow_lt64 (row_lt id SHIFT0))
      · rw [if_neg hk1]
        exact h0lt _ hj k hk
    · rw [Function.update_noteq hjp]
      exact h0lt j hj k hk
  · intro k hk
    rw [testBit_or_two_pow]
    by_cases hkp : k = id / 262144
    · subst hkp
      rw [Function.update_same]
      have hbit : (s.layer2 (id / 262144) ||| 2 ^ (id / 4096 % 64)).testBit
          (id / 4096 % 64) = true := by
        rw [testBit_or_two_pow]
        simp
      have hne := ne_zero_of_testBit hbit
      simp [hne]
    · rw [Function.update_noteq hkp]
      simp only [hkp, decide_False, Bool.or_false]
      exact hL3 k hk
  · intro i hi k hk
    by_cases hip : i = id / 262144
    · subst hip
      rw [Function.update_same, testBit_or_two_pow]
      by_cases hkr : k = id / 4096 % 64
      · subst hkr
        rw [← hpd, Function.update_same, block_add_mask]
        have hbit : ((s.layer1 (id / 4096)).mask ||| 2 ^ row id SHIFT1).testBit
            (row id SHIFT1) = true := by
          rw [testBit_or_two_pow]
          simp
        have hne := ne_zero_of_testBit hbit
        simp [hne]
      · have hne : id / 262144 * 64 + k ≠ id / 4096 := by omega
        rw [Function.update_noteq hne]
        simp only [hkr, decide_False, Bool.or_false]
        exact hL2 _ hp2 k hk
    · rw [Function.update_noteq hip]
      have hne : i * 64 + k ≠ id / 4096 := by omega
      rw [Function.update_noteq hne]
      exact hL2 i hi k hk
  · intro j hj k hk
    simp only [leafW_eq]
    by_cases hjp : j = id / 4096
    · subst hjp
      rw [Function.update_same, block_add_mask, block_add_leaf, testBit_or_two_pow]
      by_cases hk1 : k = row id SHIFT1
      · subst hk1
        rw [if_pos rfl]
        have hbit : (blkLeaf (s.layer1 (id / 4096)) (row id SHIFT1) |||
            2 ^ row id SHIFT0).testBit (row id SHIFT0) = true := by
          rw [testBit_or_two_pow]
          simp
        have hne := ne_zero_of_testBit hbit
        simp [hne]
      · rw [if_neg hk1]
        simp only [hk1, decide_False, Bool.or_false]
        exact hL1 _ hp1 k hk
    · rw [Function.update_noteq hjp]
      exact hL1 j hj k hk

theorem Inv_new : Inv AtomicBitSet.new := by
  refine ⟨by norm_num [AtomicBitSet.new], ?_, ?_, ?_, ?_, ?_, ?_⟩ <;>
    simp [AtomicBitSet.new, AtomicBlock.new, leafW, blkLeaf, Nat.zero_testBit]

/-- On an invariant-satisfying state the exclusive `add` and the shared
`add_atomic` agree exactly (same new state, same report): when the leaf bit
was already set, the summary bits `add` skips writing are already set. -/
theorem add_eq_add_atomic {s : AtomicBitSet} {id : Nat} (hInv : Inv s) :
    s.add id = s.add_atomic id := by
  by_cases hid : id < capacity
  · have hid' : id < 2 ^ 24 := capacity_eq ▸ hid
    obtain ⟨h3lt, h2lt, h1lt, h0lt, hL3, hL2, hL1⟩ := hInv
    have hp2 : id / 262144 < 64 := by omega
    have hp1 : id / 4096 < 4096 := by omega
    have hr2 : id / 4096 % 64 < 64 := by omega
    have hpd : id / 4096 = id / 262144 * 64 + id / 4096 % 64 := p1_decomp id
    have hm3 : mask id SHIFT3 = 2 ^ (id / 262144) := by
      rw [mask_eq_pow, row3_eq]
      congr 1
      omega
    have hm2 : mask id SHIFT2 = 2 ^ (id / 4096 % 64) := by rw [mask_eq_pow, row2_eq]
    rw [add_atomic_eq hid]
    simp only [AtomicBitSet.add, if_pos hid, hm2, hm3, off2_eq, off3_eq]
    cases hb : ((s.layer1 (id / 4096)).add id).2 with
    | false => simp
    | true =>
        simp only [if_pos rfl, Bool.if_true_left]
        rw [block_add_snd] at hb
        have hleaf : blkLeaf (s.layer1 (id / 4096)) (row id SHIFT1) ≠ 0 :=
          ne_zero_of_testBit hb
        have hmask : (s.layer1 (id / 4096)).mask.testBit (row id SHIFT1) = true :=
          (hL1 _ hp1 _ (row_lt id SHIFT1)).mpr (by rw [leafW_eq]; exact hleaf)
        have hmaskne : (s.layer1 (id / 4096)).mask ≠ 0 := ne_zero_of_testBit hmask
        have hl2 : (s.layer2 (id / 262144)).testBit (id / 4096 % 64) = true :=
          (hL2 _ hp2 _ hr2).mpr (by rw [← hpd]; exact hmaskne)
        have hl2ne : s.layer2 (id / 262144) ≠ 0 := ne_zero_of_testBit hl2
        have hl3 : s.layer3.testBit (id / 262144) = true := (hL3 _ hp2).mpr hl2ne
        have e3 : s.layer3 ||| 2 ^ (id / 262144) = s.layer3 := or_two_pow_eq_self hl3
        have e2 : s.layer2 (id / 262144) ||| 2 ^ (id / 4096 % 64) =
            s.layer2 (id / 262144) := or_two_pow_eq_self hl2
        rw [e3, e2, Function.update_eq_self]
        simp
  · simp only [AtomicBitSet.add, AtomicBitSet.add_atomic, if_neg hid]

theorem Inv_add {s s' : AtomicBitSet} {id : Nat} {bo : Bool}
    (hInv : Inv s) (h : s.add id = some (s', bo)) : Inv s' :=
  Inv_add_atomic hInv (add_eq_add_atomic hInv ▸ h)

theorem and_NOT64_testBit_self (x r : Nat) (hr : r < 64) :
    (x &&& NOT64 (2 ^ r)).testBit r = false := by
  rw [testBit_and_NOT64 x r r hr]
  simp

theorem blkLeaf_some {b : AtomicBlock} {arr : Nat → Nat} (hb : b.atom = some arr)
    (k : Nat) : blkLeaf b k = arr k := by
  simp only [blkLeaf, hb, Option.getD_some]

theorem blkLeaf_mk (m : Nat) (f : Nat → Nat) (k : Nat) :
    blkLeaf { mask := m, atom := some f } k = f k := rfl

theorem eq_false_of_iff_ne {b : Bool} {x : Nat} (h : (b = true ↔ x ≠ 0))
    (hx : x = 0) : b = false := by
  cases hb : b
  · rfl
  · exact absurd (h.mp hb) (by simp [hx])

theorem Inv_remove {s s' : AtomicBitSet} {id : Nat} {bo : Bool}
    (hInv : Inv s) (h : s.remove id = some (s', bo)) : Inv s' := by
  have hid : id < capacity := by
    by_contra hc
    rw [AtomicBitSet.remove, if_neg hc] at h
    exact Option.noConfusion h
  have hid' : id < 2 ^ 24 := capacity_eq ▸ hid
  obtain ⟨h3lt, h2lt, h1lt, h0lt, hL3, hL2, hL1⟩ := hInv
  simp only [leafW_eq] at h0lt hL1
  have hp2 : id / 262144 < 64 := by omega
  have hp1 : id / 4096 < 4096 := by omega
  have hr2 : id / 4096 % 64 < 64 := by omega
  have hr1 : row id SHIFT1 < 64 := row_lt id SHIFT1
  have hr0 : row id SHIFT0 < 64 := row_lt id SHIFT0
  have hpd : id / 4096 = id / 262144 * 64 + id / 4096 % 64 := p1_decomp id
  have hm3 : mask id SHIFT3 = 2 ^ (id / 262144) := by
    rw [mask_eq_pow, row3_eq]
    congr 1
    omega
  have hm2 : mask id SHIFT2 = 2 ^ (id / 4096 % 64) := by rw [mask_eq_pow, row2_eq]
  simp only [AtomicBitSet.remove, if_pos hid, off2_eq, off3_eq, hm2, hm3] at h
  cases hatom : (s.layer1 (id / 4096)).atom with
  | none =>
      rw [block_remove_none hatom] at h
      simp only [Bool.not_false, reduceIte, Function.update_eq_self] at h
      simp only [Option.some.injEq, Prod.mk.injEq] at h
      obtain ⟨h1, _⟩ := h
      subst h1
      exact ⟨h3lt, h2lt, h1lt, h0lt, hL3, hL2, hL1⟩
  | some arr =>
      rw [block_remove_some hatom] at h
      have hvlt : arr (row id SHIFT1) < 2 ^ 64 := by
        rw [← blkLeaf_some hatom]
        exact h0lt _ hp1 _ hr1
      rcases Or.symm (Bool.eq_false_or_eq_true
          ((arr (row id SHIFT1)).testBit (row id SHIFT0))) with hwas | hwas
      · -- leaf bit was not set: the state is unchanged
        rw [hwas] at h
        simp only [Bool.not_false, reduceIte] at h
        have hveq : arr (row id SHIFT1) &&& NOT64 (2 ^ row id SHIFT0) =
            arr (row id SHIFT1) := clear_unset_bit hr0 hvlt hwas
        rw [hveq, Function.update_eq_self] at h
        have hb1 : (s.layer1 (id / 4096)).mask &&& NOT64 (2 ^ row id SHIFT1) =
            (s.layer1 (id / 4096)).mask ∨ ¬ arr (row id SHIFT1) = 0 := by
          by_cases hvz : arr (row id SHIFT1) = 0
          · left
            have hmb : (s.layer1 (id / 4096)).mask.testBit (row id SHIFT1) = false :=
              eq_false_of_iff_ne
                (by have h' := hL1 (id / 4096) hp1 (row id SHIFT1) hr1
                    rwa [blkLeaf_some hatom] at h') hvz
            exact clear_unset_bit hr1 (h1lt _ hp1) hmb
          · right
            exact hvz
        rcases hb1 with hb1 | hb1
        · by_cases hvz : arr (row id SHIFT1) = 0
          · rw [if_pos hvz, hb1] at h
            rw [show ({ mask := (s.layer1 (id / 4096)).mask, atom := some arr } :
                AtomicBlock) = s.layer1 (id / 4096) by rw [← hatom]] at h
            rw [Function.update_eq_self] at h
            simp only [Option.some.injEq, Prod.mk.injEq] at h
            obtain ⟨h1, _⟩ := h
            subst h1
            exact ⟨h3lt, h2lt, h1lt, h0lt, hL3, hL2, hL1⟩
          · rw [if_neg hvz] at h
            rw [show ({ mask := (s.layer1 (id / 4096)).mask, atom := some arr } :
                AtomicBlock) = s.layer1 (id / 4096) by rw [← hatom]] at h
            rw [Function.update_eq_self] at h
            simp only [Option.some.injEq, Prod.mk.injEq] at h
            obtain ⟨h1, _⟩ := h
            subst h1
            exact ⟨h3lt, h2lt, h1lt, h0lt, hL3, hL2, hL1⟩
        · rw [if_neg hb1] at h
          rw [show ({ mask := (s.layer1 (id / 4096)).mask, atom := some arr } :
              AtomicBlock) = s.layer1 (id / 4096) by rw [← hatom]] at h
          rw [Function.update_eq_self] at h
          simp only [Option.some.injEq, Prod.mk.injEq] at h
          obtain ⟨h1, _⟩ := h
          subst h1
          exact ⟨h3lt, h2lt, h1lt, h0lt, hL3, hL2, hL1⟩
      · -- leaf bit was set
        rw [hwas] at h
        simp only [Bool.not_true, Bool.false_eq_true, if_false] at h
        have hvne : arr (row id SHIFT1) ≠ 0 := ne_zero_of_testBit hwas
        have hmaskb : (s.layer1 (id / 4096)).mask.testBit (row id SHIFT1) = true :=
          (hL1 _ hp1 _ hr1).mpr (by rw [blkLeaf_some hatom]; exact hvne)
        have hmaskne : (s.layer1 (id / 4096)).mask ≠ 0 := ne_zero_of_testBit hmaskb
        have hl2b : (s.layer2 (id / 262144)).testBit (id / 4096 % 64) = true :=
          (hL2 _ hp2 _ hr2).mpr (by rw [← hpd]; exact hmaskne)
        have hl2ne : s.layer2 (id / 262144) ≠ 0 := ne_zero_of_testBit hl2b
        have hl3b : s.layer3.testBit (id / 262144) = true := (hL3 _ hp2).mpr hl2ne
        by_cases hv2 : arr (row id SHIFT1) &&& NOT64 (2 ^ row id SHIFT0) = 0
        · -- the leaf word became zero: the block summary bit is cleared
          rw [if_pos hv2] at h
          rw [hv2] at h
          by_cases hmz : (s.layer1 (id / 4096)).mask &&& NOT64 (2 ^ row id SHIFT1) = 0
          · -- the block summary became zero: the mid bit is cleared
            rw [if_neg (fun hne => hne hmz)] at h
            have hmaskbit : ∀ k < 64,
                (s.layer1 (id / 4096)).mask.testBit k = true → k = row id SHIFT1 := by
              intro k hk hbit
              by_contra hk1
              have := testBit_and_NOT64s hr1 (h1lt _ hp1) k
              rw [hmz, Nat.zero_testBit] at this
              simp [hbit, hk1] at this
            by_cases hvp : s.layer2 (id / 262144) &&& NOT64 (2 ^ (id / 4096 % 64)) ≠ 0
            · -- mid word still non-zero
              rw [if_pos hvp] at h
              simp only [Option.some.injEq, Prod.mk.injEq] at h
              obtain ⟨h1, _⟩ := h
              subst h1
              refine ⟨?_, ?_, ?_, ?_, ?_, ?_, ?_⟩ <;> dsimp only
              · exact h3lt
              · intro i hi
                by_cases hip : i = id / 262144
                · subst hip
                  rw [Function.update_same]
                  exact lt_of_le_of_lt Nat.and_le_left (h2lt _ hp2)
                · rw [Function.update_noteq hip]
                  exact h2lt i hi
              · intro j hj
                by_cases hjp : j = id / 4096
                · subst hjp
                  rw [Function.update_same]
                  exact lt_of_le_of_lt Nat.and_le_left (h1lt _ hp1)
                · rw [Function.update_noteq hjp]
                  exact h1lt j hj
              · intro j hj k hk
                simp only [leafW_eq]
                by_cases hjp : j = id / 4096
                · subst hjp
                  rw [Function.update_same, blkLeaf_mk]
                  by_cases hki : k = row id SHIFT1
                  · subst hki
                    rw [Function.update_same]
                    norm_num
                  · rw [Function.update_noteq hki, ← blkLeaf_some hatom]
                    exact h0lt _ hj _ hk
                · rw [Function.update_noteq hjp]
                  exact h0lt j hj k hk
              · intro k hk
                by_cases hkp : k = id / 262144
                · subst hkp
                  rw [Function.update_same]
                  exact ⟨fun _ => hvp, fun _ => hl3b⟩
                · rw [Function.update_noteq hkp]
                  exact hL3 k hk
              · intro i hi k hk
                by_cases hip : i = id / 262144
                · subst hip
                  rw [Function.update_same]
                  by_cases hkr : k = id / 4096 % 64
                  · subst hkr
                    rw [← hpd, Function.update_same]
                    rw [and_NOT64_testBit_self _ _ hr2]
                    simp [hmz]
                  · rw [testBit_and_NOT64s hr2 (h2lt _ hp2) k]
                    have hne : id / 262144 * 64 + k ≠ id / 4096 := by omega
                    rw [Function.update_noteq hne]
                    simp only [hkr, decide_False, Bool.not_false, Bool.and_true]
                    exact hL2 _ hp2 k hk
                · rw [Function.update_noteq hip]
                  have hne : i * 64 + k ≠ id / 4096 := by omega
                  rw [Function.update_noteq hne]
                  exact hL2 i hi k hk
              · intro j hj k hk
                simp only [leafW_eq]
                by_cases hjp : j = id / 4096
                · subst hjp
                  rw [Function.update_same, blkLeaf_mk]
                  by_cases hki : k = row id SHIFT1
                  · subst hki
                    rw [Function.update_same, and_NOT64_testBit_self _ _ hr1]
                    simp
                  · rw [Function.update_noteq hki,
                      testBit_and_NOT64s hr1 (h1lt _ hp1) k, ← blkLeaf_some hatom]
                    simp only [hki, decide_False, Bool.not_false, Bool.and_true]
                    exact hL1 _ hp1 k hk
                · rw [Function.update_noteq hjp]
                  exact hL1 j hj k hk
            · -- mid word became zero: the top bit is cleared too
              rw [if_neg hvp] at h
              rw [not_ne_iff] at hvp
              simp only [Option.some.injEq, Prod.mk.injEq] at h
              obtain ⟨h1, _⟩ := h
              subst h1
              refine ⟨?_, ?_, ?_, ?_, ?_, ?_, ?_⟩ <;> dsimp only
              · exact lt_of_le_of_lt Nat.and_le_left h3lt
              · intro i hi
                by_cases hip : i = id / 262144
                · subst hip
                  rw [Function.update_same]
                  exact lt_of_le_of_lt Nat.and_le_left (h2lt _ hp2)
                · rw [Function.update_noteq hip]
                  exact h2lt i hi
              · intro j hj
                by_cases hjp : j = id / 4096
                · subst hjp
                  rw [Function.update_same]
                  exact lt_of_le_of_lt Nat.and_le_left (h1lt _ hp1)
                · rw [Function.update_noteq hjp]
                  exact h1lt j hj
              · intro j hj k hk
                simp only [leafW_eq]
                by_cases hjp : j = id / 4096
                · subst hjp
                  rw [Function.update_same, blkLeaf_mk]
                  by_cases hki : k = row id SHIFT1
                  · subst hki
                    rw [Function.update_same]
                    norm_num
                  · rw [Function.update_noteq hki, ← blkLeaf_some hatom]
                    exact h0lt _ hj _ hk
                · rw [Function.update_noteq hjp]
                  exact h0lt j hj k hk
              · intro k hk
                by_cases hkp : k = id / 262144
                · subst hkp
                  rw [Function.update_same, and_NOT64_testBit_self _ _ hp2]
                  simp [hvp]
                · rw [Function.update_noteq hkp,
                    testBit_and_NOT64s hp2 h3lt k]
                  simp only [hkp, decide_False, Bool.not_false, Bool.and_true]
                  exact hL3 k hk
              · intro i hi k hk
                by_cases hip : i = id / 262144
                · subst hip
                  rw [Function.update_same]
                  by_cases hkr : k = id / 4096 % 64
                  · subst hkr
                    rw [← hpd, Function.update_same]
                    rw [and_NOT64_testBit_self _ _ hr2]
                    simp [hmz]
                  · rw [testBit_and_NOT64s hr2 (h2lt _ hp2) k]
                    have hne : id / 262144 * 64 + k ≠ id / 4096 := by omega
                    rw [Function.update_noteq hne]
                    simp only [hkr, decide_False, Bool.not_false, Bool.and_true]
                    exact hL2 _ hp2 k hk
                · rw [Function.update_noteq hip]
                  have hne : i * 64 + k ≠ id / 4096 := by omega
                  rw [Function.update_noteq hne]
                  exact hL2 i hi k hk
              · intro j hj k hk
                simp only [leafW_eq]
                by_cases hjp : j = id / 4096
                · subst hjp
                  rw [Function.update_same, blkLeaf_mk]
                  by_cases hki : k = row id SHIFT1
                  · subst hki
                    rw [Function.update_same, and_NOT64_testBit_self _ _ hr1]
                    simp
                  · rw [Function.update_noteq hki,
                      testBit_and_NOT64s hr1 (h1lt _ hp1) k, ← blkLeaf_some hatom]
                    simp only [hki, decide_False, Bool.not_false, Bool.and_true]
                    exact hL1 _ hp1 k hk
                · rw [Function.update_noteq hjp]
                  exact hL1 j hj k hk
          · -- the block summary stayed non-zero
            rw [if_pos hmz] at h
            simp only [Option.some.injEq, Prod.mk.injEq] at h
            obtain ⟨h1, _⟩ := h
            subst h1
            refine ⟨?_, ?_, ?_, ?_, ?_, ?_, ?_⟩ <;> dsimp only
            · exact h3lt
            · exact h2lt
            · intro j hj
              by_cases hjp : j = id / 4096
              · subst hjp
                rw [Function.update_same]
                exact lt_of_le_of_lt Nat.and_le_left (h1lt _ hp1)
              · rw [Function.update_noteq hjp]
                exact h1lt j hj
            · intro j hj k hk
              simp only [leafW_eq]
              by_cases hjp : j = id / 4096
              · subst hjp
                rw [Function.update_same, blkLeaf_mk]
                by_cases hki : k = row id SHIFT1
                · subst hki
                  rw [Function.update_same]
                  norm_num
                · rw [Function.update_noteq hki, ← blkLeaf_some hatom]
                  exact h0lt _ hj _ hk
              · rw [Function.update_noteq hjp]
                exact h0lt j hj k hk
            · exact hL3
            · intro i hi k hk
              by_cases hik : i * 64 + k = id / 4096
              · rw [hik, Function.update_same]
                have hi2 : i = id / 262144 := by omega
                have hk2 : k = id / 4096 % 64 := by omega
                subst hi2
                subst hk2
                exact ⟨fun _ => hmz, fun _ => hl2b⟩
              · rw [Function.update_noteq hik]
                exact hL2 i hi k hk
            · intro j hj k hk
              simp only [leafW_eq]
              by_cases hjp : j = id / 4096
              · subst hjp
                rw [Function.update_same, blkLeaf_mk]
                by_cases hki : k = row id SHIFT1
                · subst hki
                  rw [Function.update_same, and_NOT64_testBit_self _ _ hr1]
                  simp
                · rw [Function.update_noteq hki,
                    testBit_and_NOT64s hr1 (h1lt _ hp1) k, ← blkLeaf_some hatom]
                  simp only [hki, decide_False, Bool.not_false, Bool.and_true]
                  exact hL1 _ hp1 k hk
              · rw [Function.update_noteq hjp]
                exact hL1 j hj k hk
        · -- the leaf word stayed non-zero: only the leaf changes
          simp only [if_neg hv2] at h
          rw [if_pos hmaskne] at h
          simp only [Option.some.injEq, Prod.mk.injEq] at h
          obtain ⟨h1, _⟩ := h
          subst h1
          refine ⟨?_, ?_, ?_, ?_, ?_, ?_, ?_⟩ <;> dsimp only
          · exact h3lt
          · exact h2lt
          · intro j hj
            by_cases hjp : j = id / 4096
            · subst hjp
              rw [Function.update_same]
              exact h1lt _ hp1
            · rw [Function.update_noteq hjp]
              exact h1lt j hj
          · intro j hj k hk
            simp only [leafW_eq]
            by_cases hjp : j = id / 4096
            · subst hjp
              rw [Function.update_same, blkLeaf_mk]
              by_cases hki : k = row id SHIFT1
              · subst hki
                rw [Function.update_same]
                exact lt_of_le_of_lt Nat.and_le_left hvlt
              · rw [Function.update_noteq hki, ← blkLeaf_some hatom]
                exact h0lt _ hj _ hk
            · rw [Function.update_noteq hjp]
              exact h0lt j hj k hk
          · exact hL3
          · intro i hi k hk
            by_cases hik : i * 64 + k = id / 4096
            · rw [hik, Function.update_same]
              have hi2 : i = id / 262144 := by omega
              have hk2 : k = id / 4096 % 64 := by omega
              subst hi2
              subst hk2
              exact ⟨fun _ => hmaskne, fun _ => hl2b⟩
            · rw [Function.update_noteq hik]
              exact hL2 i hi k hk
          · intro j hj k hk
            simp only [leafW_eq]
            by_cases hjp : j = id / 4096
            · subst hjp
              rw [Function.update_same, blkLeaf_mk]
              by_cases hki : k = row id SHIFT1
              · subst hki
                rw [Function.update_same]
                exact ⟨fun _ => hv2, fun _ => hmaskb⟩
              · rw [Function.update_noteq hki]
                have h' := hL1 (id / 4096) hp1 k hk
                rw [blkLeaf_some hatom] at h'
                exact h'
            · rw [Function.update_noteq hjp]
              exact hL1 j hj k hk

/-- A cleared block is observably empty. -/
theorem BlockZero_clear (b : AtomicBlock) : BlockZero b.clear :=
  ⟨rfl, fun k _ => block_clear_leaf b k⟩

/-- Main loop invariant of `clear`: starting from a state whose top word is
already zeroed, with every still-nonzero mid word covered by a pending `m3`
bit and every non-empty block covered either by the current `m2` word at
offset `off` or by a pending `m3` bit together with its mid word, the loop
ends in the observably empty state. -/
theorem clearLoop_zeroed (n : Nat) : ∀ (s : AtomicBitSet) (m3 m2 off : Nat),
    m3 * 2 ^ 64 + m2 ≤ n →
    m3 < 2 ^ 64 → m2 < 2 ^ 64 →
    s.layer3 = 0 →
    (∀ i < 64, s.layer2 i < 2 ^ 64) →
    (∃ g, off = g * 64) →
    (∀ i < 64, s.layer2 i ≠ 0 → m3.testBit i = true) →
    (∀ j < 4096, ¬ BlockZero (s.layer1 j) →
        (m3.testBit (j / 64) = true ∧ (s.layer2 (j / 64)).testBit (j % 64) = true) ∨
        (j / 64 * 64 = off ∧ m2.testBit (j % 64) = true)) →
    Zeroed (clearLoop s m3 m2 off) := by
  induction n using Nat.strong_induction_on with
  | _ n ih =>
    intro s m3 m2 off hn hm3 hm2 h30 h2lt hoff hcov2 hcov1
    rw [clearLoop]
    by_cases h2 : m2 % 2 ^ 64 ≠ 0
    · rw [dif_pos h2]
      rw [Nat.mod_eq_of_lt hm2] at h2 ⊢
      have hbit : tz m2 < 64 := tz_lt_of_lt h2 hm2
      have hdec := and_NOT64_tz_lt h2 hm2
      refine ih (m3 * 2 ^ 64 + (m2 &&& NOT64 (1 <<< tz m2))) (by omega) _ _ _ _
        (le_refl _) hm3 (lt_trans hdec hm2) h30 h2lt hoff hcov2 ?_
      dsimp only
      intro j hj hbz
      by_cases hjb : j = off + tz m2
      · exfalso
        apply hbz
        rw [hjb, Function.update_same]
        exact BlockZero_clear _
      · rw [Function.update_noteq hjb] at hbz
        rcases hcov1 j hj hbz with ⟨ha, hb⟩ | ⟨ha, hb⟩
        · left
          exact ⟨ha, hb⟩
        · right
          refine ⟨ha, ?_⟩
          have hne : j % 64 ≠ tz m2 := fun he => hjb (by omega)
          rw [Nat.one_shiftLeft, testBit_and_NOT64s hbit hm2]
          simp [hb, hne]
    · rw [dif_neg h2]
      rw [Nat.mod_eq_of_lt hm2] at h2
      rw [not_ne_iff] at h2
      by_cases h3 : m3 % 2 ^ 64 ≠ 0
      · rw [dif_pos h3]
        rw [Nat.mod_eq_of_lt hm3] at h3 ⊢
        have hbit : tz m3 < 64 := tz_lt_of_lt h3 hm3
        have hdec := and_NOT64_tz_lt h3 hm3
        have hl2lt : s.layer2 (tz m3) < 2 ^ 64 := h2lt _ hbit
        refine ih ((m3 &&& NOT64 (1 <<< tz m3)) * 2 ^ 64 + s.layer2 (tz m3))
          (by omega) _ _ _ _ (le_refl _) (lt_trans hdec hm3) hl2lt h30 ?_ ?_ ?_ ?_
        · dsimp only
          intro i hi
          by_cases hib : i = tz m3
          · subst hib
            rw [Function.update_same]
            norm_num
          · rw [Function.update_noteq hib]
            exact h2lt i hi
        · exact ⟨tz m3, by rw [Nat.shiftLeft_eq]; norm_num [BITS]⟩
        · dsimp only
          intro i hi hne
          by_cases hib : i = tz m3
          · subst hib
            rw [Function.update_same] at hne
            exact absurd rfl hne
          · rw [Function.update_noteq hib] at hne
            rw [Nat.one_shiftLeft, testBit_and_NOT64s hbit hm3]
            simp [hcov2 i hi hne, hib]
        · dsimp only
          intro j hj hbz
          rcases hcov1 j hj hbz with ⟨ha, hb⟩ | ⟨_, hb⟩
          · by_cases hjb : j / 64 = tz m3
            · right
              constructor
              · rw [hjb, Nat.shiftLeft_eq]
                norm_num [BITS]
              · rw [← hjb]
                exact hb
            · left
              constructor
              · rw [Nat.one_shiftLeft, testBit_and_NOT64s hbit hm3]
                simp [ha, hjb]
              · rw [Function.update_noteq hjb]
                exact hb
          · rw [h2, Nat.zero_testBit] at hb
            exact absurd hb (by simp)
      · rw [dif_neg h3]
        rw [Nat.mod_eq_of_lt hm3] at h3
        rw [not_ne_iff] at h3
        refine ⟨h30, ?_, ?_⟩
        · intro i hi
          by_contra hne
          have := hcov2 i hi hne
          rw [h3, Nat.zero_testBit] at this
          exact absurd this (by simp)
        · intro j hj
          by_contra hbz
          rcases hcov1 j hj hbz with ⟨ha, _⟩ | ⟨_, hb⟩
          · rw [h3, Nat.zero_testBit] at ha
            exact absurd ha (by simp)
          · rw [h2, Nat.zero_testBit] at hb
            exact absurd hb (by simp)

/-- On any invariant-satisfying state, `clear` leaves the structure
observably empty: the hierarchical striding reaches every non-empty
region precisely because the summary bits cover it. -/
theorem clear_zeroed {s : AtomicBitSet} (hInv : Inv s) : Zeroed s.clear := by
  obtain ⟨h3lt, h2lt, h1lt, h0lt, hL3, hL2, hL1⟩ := hInv
  simp only [leafW_eq] at h0lt hL1
  rw [AtomicBitSet.clear, Nat.mod_eq_of_lt h3lt]
  refine clearLoop_zeroed (s.layer3 * 2 ^ 64 + 0) _ _ _ _ (le_refl _) h3lt
    (by norm_num) rfl h2lt ⟨0, rfl⟩ ?_ ?_
  · intro i hi hne
    exact (hL3 i hi).mpr hne
  · intro j hj hbz
    left
    have hj64 : j / 64 < 64 := by omega
    have hjm : j % 64 < 64 := by omega
    have hmne : (s.layer1 j).mask ≠ 0 := by
      intro hm0
      apply hbz
      refine ⟨hm0, ?_⟩
      intro k hk
      by_contra hne0
      have := (hL1 j hj k hk).mpr hne0
      rw [hm0, Nat.zero_testBit] at this
      exact absurd this (by simp)
    have hjeq : j / 64 * 64 + j % 64 = j := by omega
    have hl2b : (s.layer2 (j / 64)).testBit (j % 64) = true :=
      (hL2 _ hj64 _ hjm).mpr (by rw [hjeq]; exact hmne)
    exact ⟨(hL3 _ hj64).mpr (ne_zero_of_testBit hl2b), hl2b⟩

/-- An observably empty state satisfies the hierarchy invariant. -/
theorem Inv_of_Zeroed {s : AtomicBitSet} (h : Zeroed s) : Inv s := by
  obtain ⟨h3, h2, h1⟩ := h
  refine ⟨by rw [h3]; norm_num, ?_, ?_, ?_, ?_, ?_, ?_⟩
  · intro i hi
    rw [h2 i hi]
    norm_num
  · intro j hj
    rw [(h1 j hj).1]
    norm_num
  · intro j hj k hk
    have hz := (h1 j hj).2 k hk
    simp only [leafW, blkLeaf]
    rw [hz]
    norm_num
  · intro k hk
    rw [h3, Nat.zero_testBit, h2 k hk]
    simp
  · intro i hi k hk
    have hlt : i * 64 + k < 4096 := by omega
    rw [h2 i hi, Nat.zero_testBit, (h1 _ hlt).1]
    simp
  · intro j hj k hk
    have hz := (h1 j hj).2 k hk
    rw [(h1 j hj).1, Nat.zero_testBit]
    simp only [leafW]
    rw [hz]
    simp

theorem Inv_clear {s : AtomicBitSet} (hInv : Inv s) : Inv s.clear :=
  Inv_of_Zeroed (clear_zeroed hInv)

/-- Every reachable state satisfies the hierarchy invariant. -/
theorem reachable_inv {s : AtomicBitSet} (h : Reachable s) : Inv s := by
  induction h with
  | new => exact Inv_new
  | add _ hop ih => exact Inv_add ih hop
  | add_atomic _ hop ih => exact Inv_add_atomic ih hop
  | remove _ hop ih => exact Inv_remove ih hop
  | clear _ ih => exact Inv_clear ih

/-! Behavioural lemmas about the tree operations on arbitrary states. -/

theorem add_guard {s : AtomicBitSet} {id : Nat} {r : AtomicBitSet × Bool}
    (h : s.add id = some r) : id < capacity := by
  by_contra hc
  rw [AtomicBitSet.add, if_neg hc] at h
  exact Option.noConfusion h

theorem remove_guard {s : AtomicBitSet} {id : Nat} {r : AtomicBitSet × Bool}
    (h : s.remove id = some r) : id < capacity := by
  by_contra hc
  rw [AtomicBitSet.remove, if_neg hc] at h
  exact Option.noConfusion h

/-- Both branches of `add` update `layer1` the same way. -/
theorem add_layer1 {s s' : AtomicBitSet} {id : Nat} {b : Bool}
    (hid : id < capacity) (h : s.add id = some (s', b)) :
    s'.layer1 =
      Function.update s.layer1 (id / 4096) ((s.layer1 (id / 4096)).add id).1 := by
  simp only [AtomicBitSet.add, if_pos hid, off2_eq, off3_eq] at h
  split at h <;>
    · simp only [Option.some.injEq, Prod.mk.injEq] at h
      obtain ⟨h1, _⟩ := h
      subst h1
      rfl

/-- Every exit branch of `remove` updates `layer1` the same way. -/
theorem remove_layer1 {s s' : AtomicBitSet} {id : Nat} {b : Bool}
    (hid : id < capacity) (h : s.remove id = some (s', b)) :
    s'.layer1 =
      Function.update s.layer1 (id / 4096) ((s.layer1 (id / 4096)).remove id).1 := by
  simp only [AtomicBitSet.remove, if_pos hid, off2_eq, off3_eq] at h
  split at h
  · simp only [Option.some.injEq, Prod.mk.injEq] at h
    obtain ⟨h1, _⟩ := h
    subst h1
    rfl
  · split at h
    · simp only [Option.some.injEq, Prod.mk.injEq] at h
      obtain ⟨h1, _⟩ := h
      subst h1
      rfl
    · split at h <;>
        · simp only [Option.some.injEq, Prod.mk.injEq] at h
          obtain ⟨h1, _⟩ := h
          subst h1
          rfl

/-- The report of the block `remove` is the leaf bit before the call. -/
theorem block_remove_snd (s : AtomicBitSet) (id : Nat) :
    ((s.layer1 (id / 4096)).remove id).2 =
      (leafW s (id / 4096) (id / 64 % 64)).testBit (id % 64) := by
  cases hatom : (s.layer1 (id / 4096)).atom with
  | none =>
      rw [block_remove_none hatom]
      simp [leafW_eq, blkLeaf, hatom, Nat.zero_testBit]
  | some arr =>
      rw [block_remove_some hatom]
      rw [leafW_eq, blkLeaf_some hatom, row1_eq, row0_eq]

/-- The report of the block `add` is the leaf bit before the call. -/
theorem block_add_snd_leafW (s : AtomicBitSet) (id : Nat) :
    ((s.layer1 (id / 4096)).add id).2 =
      (leafW s (id / 4096) (id / 64 % 64)).testBit (id % 64) := by
  rw [block_add_snd, leafW_eq, row1_eq, row0_eq]

/-- `add` reports exactly the membership of `id` before the call. -/
theorem add_map_snd {s : AtomicBitSet} {id : Nat} (hid : id < capacity) :
    (s.add id).map Prod.snd = s.contains id := by
  rw [contains_eq hid]
  simp only [AtomicBitSet.add, if_pos hid, off2_eq, off3_eq]
  split
  · next hcond =>
      rw [block_add_snd_leafW] at hcond
      rw [← hcond]
      rfl
  · next hcond =>
      rw [block_add_snd_leafW] at hcond
      have : (leafW s (id / 4096) (id / 64 % 64)).testBit (id % 64) = false :=
        Bool.not_eq_true _ ▸ hcond
      rw [this]
      rfl

/-- `remove` reports exactly the membership of `id` before the call. -/
theorem remove_map_snd {s : AtomicBitSet} {id : Nat} (hid : id < capacity) :
    (s.remove id).map Prod.snd = s.contains id := by
  rw [contains_eq hid]
  simp only [AtomicBitSet.remove, if_pos hid, off2_eq, off3_eq]
  split
  · next hcond =>
      have h2 : ((s.layer1 (id / 4096)).remove id).2 = false := by
        cases hb : ((s.layer1 (id / 4096)).remove id).2
        · rfl
        · rw [hb] at hcond
          exact absurd hcond (by simp)
      rw [block_remove_snd] at h2
      rw [h2]
      rfl
  · next hcond =>
      have h2 : ((s.layer1 (id / 4096)).remove id).2 = true := by
        cases hb : ((s.layer1 (id / 4096)).remove id).2
        · rw [hb] at hcond
          exact absurd (by simp) hcond
        · rfl
      rw [block_remove_snd] at h2
      rw [h2]
      split
      · rfl
      · split <;> rfl

/-- After `add id`, `id` is a member. -/
theorem contains_after_add {s s' : AtomicBitSet} {id : Nat} {b : Bool}
    (h : s.add id = some (s', b)) : s'.contains id = some true := by
  have hid : id < capacity := add_guard h
  rw [contains_eq hid, leafW_eq, add_layer1 hid h, Function.update_same,
    block_add_leaf]
  rw [if_pos (row1_eq id).symm, testBit_or_two_pow]
  have : id % 64 = row id SHIFT0 := (row0_eq id).symm
  simp [this]

/-- After `remove id`, `id` is not a member. -/
theorem contains_after_remove {s s' : AtomicBitSet} {id : Nat} {b : Bool}
    (h : s.remove id = some (s', b)) : s'.contains id = some false := by
  have hid : id < capacity := remove_guard h
  rw [contains_eq hid, leafW_eq, remove_layer1 hid h, Function.update_same]
  cases hatom : (s.layer1 (id / 4096)).atom with
  | none =>
      rw [block_remove_none hatom]
      simp [blkLeaf, hatom, Nat.zero_testBit]
  | some arr =>
      rw [block_remove_some hatom]
      rw [blkLeaf_mk, row1_eq, Function.update_same, row0_eq]
      rw [and_NOT64_testBit_self _ _ (by rw [← row0_eq]; exact row_lt id SHIFT0)]

/-- A fresh set contains nothing. -/
theorem contains_new {id : Nat} (hid : id < capacity) :
    AtomicBitSet.new.contains id = some false := by
  rw [contains_eq hid]
  simp [leafW, AtomicBitSet.new, AtomicBlock.new, Nat.zero_testBit]

theorem triple_ne_r0 {id id' : Nat} (hne : id ≠ id') (hp : id' / 4096 = id / 4096)
    (hk : id' / 64 % 64 = id / 64 % 64) : id' % 64 ≠ id % 64 := by omega

/-- Reading any other identifier's leaf bit is unaffected by the block-level
`add` for `id`. -/
theorem frame_leaf_add (s : AtomicBitSet) {id id' : Nat} (hne : id ≠ id') :
    (blkLeaf (Function.update s.layer1 (id / 4096)
        ((s.layer1 (id / 4096)).add id).1 (id' / 4096))
        (id' / 64 % 64)).testBit (id' % 64) =
    (blkLeaf (s.layer1 (id' / 4096)) (id' / 64 % 64)).testBit (id' % 64) := by
  by_cases hp : id' / 4096 = id / 4096
  · rw [hp, Function.update_same, block_add_leaf]
    by_cases hk : id' / 64 % 64 = row id SHIFT1
    · rw [if_pos hk, testBit_or_two_pow]
      have hr0 : id' % 64 ≠ row id SHIFT0 := by
        rw [row1_eq] at hk
        rw [row0_eq]
        omega
      rw [hk]
      simp [hr0]
    · rw [if_neg hk]
  · rw [Function.update_noteq hp]

/-- The leaf words after a block `remove` on an allocated block. -/
theorem block_remove_leaf_some {b : AtomicBlock} {arr : Nat → Nat}
    (hb : b.atom = some arr) (id k : Nat) :
    blkLeaf (b.remove id).1 k =
      if k = row id SHIFT1
      then arr (row id SHIFT1) &&& NOT64 (2 ^ row id SHIFT0)
      else arr k := by
  rw [block_remove_some hb]
  by_cases hk : k = row id SHIFT1
  · rw [if_pos hk, hk]
    exact Function.update_same _ _ _
  · rw [if_neg hk]
    exact Function.update_noteq hk _ _

/-- Reading any other identifier's leaf bit is unaffected by the block-level
`remove` for `id`. -/
theorem frame_leaf_remove (s : AtomicBitSet) {id id' : Nat} (hne : id ≠ id') :
    (blkLeaf (Function.update s.layer1 (id / 4096)
        ((s.layer1 (id / 4096)).remove id).1 (id' / 4096))
        (id' / 64 % 64)).testBit (id' % 64) =
    (blkLeaf (s.layer1 (id' / 4096)) (id' / 64 % 64)).testBit (id' % 64) := by
  by_cases hp : id' / 4096 = id / 4096
  · rw [hp, Function.update_same]
    cases hatom : (s.layer1 (id / 4096)).atom with
    | none =>
        have hfst : ((s.layer1 (id / 4096)).remove id).1 = s.layer1 (id / 4096) := by
          rw [block_remove_none hatom]
        rw [hfst]
    | some arr =>
        rw [block_remove_leaf_some hatom]
        by_cases hk : id' / 64 % 64 = row id SHIFT1
        · rw [if_pos hk]
          have hr0 : id' % 64 ≠ row id SHIFT0 := by
            rw [row1_eq] at hk
            rw [row0_eq]
            omega
          rw [testBit_and_NOT64 _ _ _ (row_lt id SHIFT0)]
          have hlt : id' % 64 < 64 := by omega
          rw [hk, blkLeaf_some hatom]
          simp [hr0, hlt]
        · rw [if_neg hk, blkLeaf_some hatom]
  · rw [Function.update_noteq hp]

/-- Membership of any other identifier is unaffected by `add`. -/
theorem frame_add {s s' : AtomicBitSet} {id id' : Nat} {b : Bool}
    (hne : id ≠ id') (hid' : id' < capacity)
    (h : s.add id = some (s', b)) : s'.contains id' = s.contains id' := by
  have hid : id < capacity := add_guard h
  rw [contains_eq hid', contains_eq hid', leafW_eq, leafW_eq,
    add_layer1 hid h, frame_leaf_add s hne]

/-- Membership of any other identifier is unaffected by `add_atomic`. -/
theorem frame_add_atomic {s s' : AtomicBitSet} {id id' : Nat} {b : Bool}
    (hne : id ≠ id') (hid' : id' < capacity)
    (h : s.add_atomic id = some (s', b)) : s'.contains id' = s.contains id' := by
  have hid : id < capacity := by
    by_contra hc
    rw [AtomicBitSet.add_atomic, if_neg hc] at h
    exact Option.noConfusion h
  have hl : s'.layer1 =
      Function.update s.layer1 (id / 4096) ((s.layer1 (id / 4096)).add id).1 := by
    rw [add_atomic_eq hid] at h
    simp only [Option.some.injEq, Prod.mk.injEq] at h
    obtain ⟨h1, _⟩ := h
    subst h1
    rw [off2_eq]
  rw [contains_eq hid', contains_eq hid', leafW_eq, leafW_eq, hl,
    frame_leaf_add s hne]

/-- Membership of any other identifier is unaffected by `remove`. -/
theorem frame_remove {s s' : AtomicBitSet} {id id' : Nat} {b : Bool}
    (hne : id ≠ id') (hid' : id' < capacity)
    (h : s.remove id = some (s', b)) : s'.contains id' = s.contains id' := by
  have hid : id < capacity := remove_guard h
  rw [contains_eq hid', contains_eq hid', leafW_eq, leafW_eq,
    remove_layer1 hid h, frame_leaf_remove s hne]

theorem layer0_of_zeroed {s : AtomicBitSet} (h : Zeroed s) {i : Nat}
    (hi : i < 2 ^ 18) : s.layer0 i = 0 := by
  obtain ⟨_, _, h1⟩ := h
  have ho1 : i >>> BITS < 4096 := by
    rw [Nat.shiftRight_eq_div_pow]
    have hb : BITS = 6 := rfl
    rw [hb]
    omega
  have hk : i &&& ((1 <<< BITS) - 1) < 64 := by
    have : i &&& ((1 <<< BITS) - 1) ≤ (1 <<< BITS) - 1 := Nat.and_le_right
    have he : (1 <<< BITS) - 1 = 63 := rfl
    omega
  cases hatom : (s.layer1 (i >>> BITS)).atom with
  | none => simp [AtomicBitSet.layer0, hatom]
  | some arr =>
      have hb := (h1 _ ho1).2 (i &&& ((1 <<< BITS) - 1)) hk
      rw [hatom] at hb
      simp only [Option.getD_some] at hb
      simp [AtomicBitSet.layer0, hatom, hb]

theorem contains_of_zeroed {s : AtomicBitSet} (h : Zeroed s) {id : Nat}
    (hid : id < capacity) : s.contains id = some false := by
  rw [contains_eq hid]
  obtain ⟨_, _, h1⟩ := h
  have hp1 : id / 4096 < 4096 := by
    rw [capacity_eq] at hid
    omega
  have hk : id / 64 % 64 < 64 := by omega
  have hb := (h1 _ hp1).2 (id / 64 % 64) hk
  simp only [leafW]
  rw [hb, Nat.zero_testBit]

theorem layer0_atom_none {s : AtomicBitSet} {i : Nat}
    (h : (s.layer1 (i >>> BITS)).atom = none) : s.layer0 i = 0 := by
  simp [AtomicBitSet.layer0, h]

theorem layer0_atom_some {s : AtomicBitSet} {i : Nat} {arr : Nat → Nat}
    (h : (s.layer1 (i >>> BITS)).atom = some arr) :
    s.layer0 i = arr (i &&& ((1 <<< BITS) - 1)) := by
  simp [AtomicBitSet.layer0, h]

/-- `contains` reads exactly the `layer0` word addressed by the
identifier's coordinates. -/
theorem contains_layer0 {s : AtomicBitSet} {id : Nat} (hid : id < capacity) :
    s.contains id = some ((s.layer0 (id >>> BITS)).testBit (id % 64)) := by
  rw [contains_eq hid]
  have ho : (id >>> BITS) >>> BITS = id / 4096 := by
    rw [Nat.shiftRight_eq_div_pow, Nat.shiftRight_eq_div_pow]
    have hb : BITS = 6 := rfl
    rw [hb]
    omega
  have ho0 : (id >>> BITS) &&& ((1 <<< BITS) - 1) = id / 64 % 64 := by
    have h1 : (1 <<< BITS) - 1 = 2 ^ 6 - 1 := rfl
    rw [h1, Nat.and_pow_two_sub_one_eq_mod, Nat.shiftRight_eq_div_pow]
    norm_num [BITS]
  have hl : s.layer0 (id >>> BITS) = leafW s (id / 4096) (id / 64 % 64) := by
    simp only [AtomicBitSet.layer0, leafW, ho, ho0]
    cases hatom : (s.layer1 (id / 4096)).atom <;> simp [hatom]
  rw [hl]

theorem exists_of_map_snd {o : Option (AtomicBitSet × Bool)} {b : Bool}
    (h : o.map Prod.snd = some b) : ∃ s', o = some (s', b) := by
  cases o with
  | none => simp at h
  | some p =>
      rcases p with ⟨s', b'⟩
      have h' : b' = b := Option.some.inj h
      exact ⟨s', by rw [h']⟩

theorem add_isSome {s : AtomicBitSet} {id : Nat} (hid : id < capacity) :
    (s.add id).isSome = true := by
  simp only [AtomicBitSet.add, if_pos hid]
  split <;> rfl

theorem add_atomic_isSome {s : AtomicBitSet} {id : Nat} (hid : id < capacity) :
    (s.add_atomic id).isSome = true := by
  rw [add_atomic_eq hid]
  rfl

theorem add_none {s : AtomicBitSet} {id : Nat} (hid : capacity ≤ id) :
    s.add id = none := by
  rw [AtomicBitSet.add, if_neg (by omega)]

theorem add_atomic_none {s : AtomicBitSet} {id : Nat} (hid : capacity ≤ id) :
    s.add_atomic id = none := by
  rw [AtomicBitSet.add_atomic, if_neg (by omega)]

theorem mapM_eq_none {α β : Type} (f : α → Option β) :
    ∀ l : List α, (∃ a ∈ l, f a = none) → l.mapM f = none := by
  intro l
  induction l with
  | nil =>
      rintro ⟨a, ha, _⟩
      simp at ha
  | cons x xs ih =>
      rintro ⟨a, ha, hfa⟩
      rw [List.mapM_cons]
      rcases List.mem_cons.mp ha with rfl | hmem
      · rw [hfa]
        rfl
      · cases hfx : f x with
        | none => rfl
        | some b =>
            rw [ih ⟨a, hmem, hfa⟩]
            rfl

theorem debugFmt_none {s : AtomicBitSet} {j : Nat} (hj : j < 4096)
    (hatom : (s.layer1 j).atom = none) : s.debugFmt = none := by
  rw [AtomicBitSet.debugFmt]
  have hm : ((List.range (1 <<< (2 * BITS))).mapM fun j => (s.layer1 j).debugFmt)
      = none := by
    apply mapM_eq_none
    refine ⟨j, ?_, ?_⟩
    · rw [List.mem_range]
      have : (1 <<< (2 * BITS)) = 4096 := rfl
      omega
    · simp [AtomicBlock.debugFmt, hatom]
  rw [hm]
  rfl

/-! The claims. -/

/-- C1: hierarchy invariant preservation — every state reachable from a
fresh `AtomicBitSet` by in-capacity operations satisfies `Inv` (bit `k` of
the top word set iff mid word `k` is non-zero, bit `k` of a mid word set
iff group-summary word `k` is non-zero, bit `k` of a group summary set iff
leaf word `k` is non-zero, an unallocated leaf array counting as all-zero),
and the exclusive operations `add`, `remove` and `clear` each preserve
`Inv`. -/
theorem spec_c1 (s : AtomicBitSet) (h : Reachable s) :
    Inv s ∧
    (∀ id s' b, s.add id = some (s', b) → Inv s') ∧
    (∀ id s' b, s.remove id = some (s', b) → Inv s') ∧
    Inv s.clear := by
  have hi := reachable_inv h
  exact ⟨hi, fun _ _ _ hop => Inv_add hi hop, fun _ _ _ hop => Inv_remove hi hop,
    Inv_clear hi⟩

theorem spec_c1_witness : Reachable AtomicBitSet.new ∧ Inv AtomicBitSet.new :=
  ⟨Reachable.new, (spec_c1 AtomicBitSet.new Reachable.new).1⟩

/-- C2: on a freshly constructed `AtomicBitSet`, `contains id` returns
false for every in-capacity identifier; after `add id` on any reachable
state, `contains id` returns true. -/
theorem spec_c2 (id : Nat) (h : id < capacity) :
    AtomicBitSet.new.contains id = some false ∧
    ∀ s s' b, Reachable s → s.add id = some (s', b) →
      s'.contains id = some true :=
  ⟨contains_new h, fun _ _ _ _ hop => contains_after_add hop⟩

theorem spec_c2_witness :
    (5 : Nat) < capacity ∧
    (AtomicBitSet.new.contains 5 = some false ∧
      ∀ s s' b, Reachable s → s.add 5 = some (s', b) →
        s'.contains 5 = some true) :=
  ⟨by decide, spec_c2 5 (by decide)⟩

/-- C3: the boolean returned by `add` is exactly whether the identifier's
leaf bit was set before the operation (which is also what `contains`
reads), so the first `add` of an absent identifier reports false and a
repeated `add` while present reports true. -/
theorem spec_c3 (s : AtomicBitSet) (id : Nat) (h : id < capacity) :
    (s.add id).map Prod.snd = s.contains id ∧
    ∀ s' b, s.add id = some (s', b) →
      b = (leafW s (id / 4096) (id / 64 % 64)).testBit (id % 64) ∧
      (s'.add id).map Prod.snd = some true := by
  refine ⟨add_map_snd h, fun s' b hop => ⟨?_, ?_⟩⟩
  · have hmap := add_map_snd (s := s) h
    rw [hop, contains_eq h] at hmap
    exact Option.some.inj hmap
  · rw [add_map_snd h, contains_after_add hop]

theorem spec_c3_witness :
    (0 : Nat) < capacity ∧
    ((AtomicBitSet.new.add 0).map Prod.snd = AtomicBitSet.new.contains 0 ∧
      ∀ s' b, AtomicBitSet.new.add 0 = some (s', b) →
        b = (leafW AtomicBitSet.new (0 / 4096) (0 / 64 % 64)).testBit (0 % 64) ∧
        (s'.add 0).map Prod.snd = some true) :=
  ⟨by decide, spec_c3 AtomicBitSet.new 0 (by decide)⟩

/-- C4: removal semantics — `remove id` on a fresh set returns false;
after `add id` on any reachable state, `remove id` returns true and leaves
`contains id` false; a second `remove id` then returns false. -/
theorem spec_c4 (id : Nat) (h : id < capacity) :
    (AtomicBitSet.new.remove id).map Prod.snd = some false ∧
    ∀ s s1 b, Reachable s → s.add id = some (s1, b) →
      ∃ s2, s1.remove id = some (s2, true) ∧ s2.contains id = some false ∧
        (s2.remove id).map Prod.snd = some false := by
  constructor
  · rw [remove_map_snd h, contains_new h]
  · intro s s1 b _ hadd
    have h1 : (s1.remove id).map Prod.snd = some true := by
      rw [remove_map_snd h, contains_after_add hadd]
    obtain ⟨s2, h2⟩ := exists_of_map_snd h1
    refine ⟨s2, h2, contains_after_remove h2, ?_⟩
    rw [remove_map_snd h, contains_after_remove h2]

theorem spec_c4_witness :
    (42 : Nat) < capacity ∧
    ((AtomicBitSet.new.remove 42).map Prod.snd = some false ∧
      ∀ s s1 b, Reachable s → s.add 42 = some (s1, b) →
        ∃ s2, s1.remove 42 = some (s2, true) ∧ s2.contains 42 = some false ∧
          (s2.remove 42).map Prod.snd = some false) :=
  ⟨by decide, spec_c4 42 (by decide)⟩

/-- C5: `clear` empties the set — on every reachable state, after `clear`
every layer accessor (`layer3`, each `layer2 i`, each `layer1 i`, each
`layer0 i`) returns zero and `contains` is false for every in-capacity
identifier, so iteration over the layers yields zero elements. -/
theorem spec_c5 (s : AtomicBitSet) (h : Reachable s) :
    s.clear.layer3Word = 0 ∧
    (∀ i < 64, s.clear.layer2Word i = 0) ∧
    (∀ i < 4096, s.clear.layer1Word i = 0) ∧
    (∀ i < 2 ^ 18, s.clear.layer0 i = 0) ∧
    ∀ id < capacity, s.clear.contains id = some false := by
  have hz := clear_zeroed (reachable_inv h)
  obtain ⟨h3, h2, h1⟩ := hz
  exact ⟨h3, h2, fun i hi => (h1 i hi).1,
    fun i hi => layer0_of_zeroed ⟨h3, h2, h1⟩ hi,
    fun id hid => contains_of_zeroed ⟨h3, h2, h1⟩ hid⟩

theorem spec_c5_witness :
    Reachable AtomicBitSet.new ∧
    (AtomicBitSet.new.clear.layer3Word = 0 ∧
      (∀ i < 64, AtomicBitSet.new.clear.layer2Word i = 0) ∧
      (∀ i < 4096, AtomicBitSet.new.clear.layer1Word i = 0) ∧
      (∀ i < 2 ^ 18, AtomicBitSet.new.clear.layer0 i = 0) ∧
      ∀ id < capacity, AtomicBitSet.new.clear.contains id = some false) :=
  ⟨Reachable.new, spec_c5 AtomicBitSet.new Reachable.new⟩

/-- C6: capacity boundary — the maximum representable identifier
(`capacity - 1 = W ^ 4 - 1`) can be inserted on a fresh set and observed
via `contains`; any identifier at or beyond the fixed capacity makes both
`add` and `add_atomic` fail fast via the panicking out-of-bounds index
(modelled as `none`), never clamping or wrapping; and every in-capacity
insertion succeeds without panicking. -/
theorem spec_c6 :
    (∃ s', AtomicBitSet.new.add (capacity - 1) = some (s', false) ∧
      s'.contains (capacity - 1) = some true) ∧
    (∀ (s : AtomicBitSet) (id : Nat), capacity ≤ id →
      s.add id = none ∧ s.add_atomic id = none) ∧
    (∀ (s : AtomicBitSet) (id : Nat), id < capacity →
      (s.add id).isSome = true ∧ (s.add_atomic id).isSome = true) := by
  refine ⟨?_, fun s id hid => ⟨add_none hid, add_atomic_none hid⟩,
    fun s id hid => ⟨add_isSome hid, add_atomic_isSome hid⟩⟩
  have hmax : capacity - 1 < capacity := by decide
  have h1 : (AtomicBitSet.new.add (capacity - 1)).map Prod.snd = some false := by
    rw [add_map_snd hmax, contains_new hmax]
  obtain ⟨s', hs'⟩ := exists_of_map_snd h1
  exact ⟨s', hs', contains_after_add hs'⟩

theorem spec_c6_witness :
    capacity ≤ capacity ∧
    AtomicBitSet.new.add capacity = none ∧
    AtomicBitSet.new.add_atomic capacity = none :=
  ⟨le_refl _, spec_c6.2.1 AtomicBitSet.new capacity (le_refl _)⟩

/-- C7: equivalence of the two insertion paths — on every reachable state
satisfying the hierarchy invariant, the exclusive `add` and the shared
`add_atomic` return the same boolean and leave the set in identical
states for every in-capacity identifier, even though `add` skips the
upper-layer stores when the leaf bit was already set. -/
theorem spec_c7 (s : AtomicBitSet) (id : Nat) (hr : Reachable s)
    (hInv : Inv s) (h : id < capacity) : s.add id = s.add_atomic id :=
  add_eq_add_atomic hInv

theorem spec_c7_witness :
    Reachable AtomicBitSet.new ∧ Inv AtomicBitSet.new ∧ (0 : Nat) < capacity ∧
    AtomicBitSet.new.add 0 = AtomicBitSet.new.add_atomic 0 :=
  ⟨Reachable.new, Inv_new, by decide,
    spec_c7 AtomicBitSet.new 0 Reachable.new Inv_new (by decide)⟩

/-- C8: layer-accessor contract — `layer0 i` returns zero whenever the
owning group's leaf array was never allocated and otherwise the resolved
leaf word; and `contains id` is true exactly when `id`'s bit is set in the
`layer0` word addressed by `id`'s coordinates (in particular `contains`
is non-allocating and false on a never-published leaf array). -/
theorem spec_c8 :
    (∀ (s : AtomicBitSet), ∀ i < 2 ^ 18,
      ((s.layer1 (i >>> BITS)).atom = none → s.layer0 i = 0) ∧
      ∀ arr, (s.layer1 (i >>> BITS)).atom = some arr →
        s.layer0 i = arr (i &&& ((1 <<< BITS) - 1))) ∧
    ∀ (s : AtomicBitSet), ∀ id < capacity,
      s.contains id = some ((s.layer0 (id >>> BITS)).testBit (id % 64)) :=
  ⟨fun _ _ _ => ⟨fun h => layer0_atom_none h, fun _ h => layer0_atom_some h⟩,
    fun _ _ hid => contains_layer0 hid⟩

theorem spec_c8_witness :
    (0 : Nat) < capacity ∧
    AtomicBitSet.new.contains 0 =
      some ((AtomicBitSet.new.layer0 (0 >>> BITS)).testBit (0 % 64)) :=
  ⟨by decide, spec_c8.2 AtomicBitSet.new 0 (by decide)⟩

/-- C9: frame property — for distinct in-capacity identifiers, `add`,
`add_atomic` and `remove` for `id` leave `contains id'` unchanged on every
reachable state. -/
theorem spec_c9 (s : AtomicBitSet) (id id' : Nat) (hr : Reachable s)
    (hne : id ≠ id') (h : id < capacity) (h' : id' < capacity) :
    (∀ s' b, s.add id = some (s', b) → s'.contains id' = s.contains id') ∧
    (∀ s' b, s.add_atomic id = some (s', b) → s'.contains id' = s.contains id') ∧
    (∀ s' b, s.remove id = some (s', b) → s'.contains id' = s.contains id') :=
  ⟨fun _ _ hop => frame_add hne h' hop,
    fun _ _ hop => frame_add_atomic hne h' hop,
    fun _ _ hop => frame_remove hne h' hop⟩

theorem spec_c9_witness :
    Reachable AtomicBitSet.new ∧ (0 : Nat) ≠ 1 ∧ (0 : Nat) < capacity ∧
    (1 : Nat) < capacity ∧
    ((∀ s' b, AtomicBitSet.new.add 0 = some (s', b) →
        s'.contains 1 = AtomicBitSet.new.contains 1) ∧
      (∀ s' b, AtomicBitSet.new.add_atomic 0 = some (s', b) →
        s'.contains 1 = AtomicBitSet.new.contains 1) ∧
      ∀ s' b, AtomicBitSet.new.remove 0 = some (s', b) →
        s'.contains 1 = AtomicBitSet.new.contains 1) :=
  ⟨Reachable.new, by decide, by decide, by decide,
    spec_c9 AtomicBitSet.new 0 1 Reachable.new (by decide) (by decide) (by decide)⟩

/-- C10: `Debug` formatting unwraps the optional leaf-array pointer, so it
panics (modelled as `none`) whenever some group block's leaf array was
never allocated — in particular on a freshly constructed `AtomicBitSet`,
whose group blocks are all unallocated. -/
theorem spec_c10 (s : AtomicBitSet)
    (h : ∃ j, j < 4096 ∧ (s.layer1 j).atom = none) : s.debugFmt = none := by
  obtain ⟨j, hj, hatom⟩ := h
  exact debugFmt_none hj hatom

theorem spec_c10_witness :
    (∃ j, j < 4096 ∧ (AtomicBitSet.new.layer1 j).atom = none) ∧
    AtomicBitSet.new.debugFmt = none :=
  ⟨⟨0, by decide, rfl⟩, spec_c10 AtomicBitSet.new ⟨0, by decide, rfl⟩⟩

end Hibitset
